import Mathlib

/-!
Verification development for the Jacobian / SVD / latent-traversal analysis of
the manifold-autoencoder repository.  The embedding below translates
`src/test_CAE.py` (the `find_jacobian` function and the per-sample traversal
rendering loop) together with the parts of `src/model/autoencoder.py` that the
analysed properties depend on (the encoder/decoder forward passes and the
training-mode behaviour of their `nn.BatchNorm2d` layers).

Scalars are modelled by `ℚ`; encoder and decoder are modelled as black-box
differentiable per-sample maps, following the spec's external-interface
contract for them, carrying their Jacobian matrix field explicitly.
-/

/-- Differentiable map between finite index types, the model of the spec's
encoder/decoder interface (a black-box function differentiable end-to-end).
`f` is the pure forward function; `jac a j i` is the derivative of output
component `j` with respect to input component `i`, evaluated at the point
`a`.  The autograd backward pass is modelled below as the vector-Jacobian
product with `jac`. -/
structure DiffFn (ι κ : Type) where
  f : (ι → ℚ) → (κ → ℚ)
  jac : (ι → ℚ) → κ → ι → ℚ

/-- Pixel index (channel, row, column) of an image tensor of shape (C, H, W). -/
abbrev Pixel (C H W : ℕ) : Type := Fin C × Fin H × Fin W

/-- Mean of all entries of a batched tensor, used as the representative batch
statistic for the BatchNorm running-statistic update. -/
def batchMean {N : ℕ} {α : Type} [Fintype α] (v : Fin N → α → ℚ) : ℚ :=
  (∑ n, ∑ a, v n a) / ((N : ℚ) * (Fintype.card α : ℚ))

/-- Momentum of `nn.BatchNorm2d`, the PyTorch default 0.1 used by the layers
of `ConvEncoder` and `ConvDecoder` in `src/model/autoencoder.py`. -/
def bnMomentum : ℚ := 1 / 10

/-- Running-statistic update performed by a BatchNorm layer on every forward
pass while its module is in training mode (`test_CAE.py` never calls
`eval()`, so the loaded modules stay in training mode):
`running ← (1 − momentum)·running + momentum·batch_statistic`. -/
def bnUpdate (r μ : ℚ) : ℚ := (1 - bnMomentum) * r + bnMomentum * μ

/-- Mutable state visible across the autograd calls of `find_jacobian`: the
input tensor `x` (its values, its `requires_grad` flag and its `.grad`
buffer, an unset buffer being the zero function), and the module state of the
encoder and decoder (a representative BatchNorm running statistic and a
forward-call counter each). -/
structure AGState (N : ℕ) (Pix : Type) where
  xData : Fin N → Pix → ℚ
  xRequiresGrad : Bool
  xGrad : Fin N → Pix → ℚ
  encRunning : ℚ
  decRunning : ℚ
  encCalls : ℕ
  decCalls : ℕ

/-- Forward pass `z = encoder(x)` of `ConvEncoder.forward` on the stored
input batch: returns the latent batch (the pure per-sample function applied
to each sample) and the state with the encoder module state updated
(BatchNorm running statistics change on a training-mode forward pass; the
normalisation itself uses the batch statistics, so the output values do not
depend on the running statistics). -/
def encoderForward {N Z : ℕ} {Pix : Type} [Fintype Pix]
    (enc : DiffFn Pix (Fin Z)) (s : AGState N Pix) :
    (Fin N → Fin Z → ℚ) × AGState N Pix :=
  (fun n => enc.f (s.xData n),
   { s with encRunning := bnUpdate s.encRunning (batchMean s.xData),
            encCalls := s.encCalls + 1 })

/-- Forward pass `decoder(z)` of `ConvDecoder.forward` on a latent batch,
updating the decoder module state in the same way. -/
def decoderForward {N Z : ℕ} {Pix : Type} [Fintype Pix]
    (dec : DiffFn (Fin Z) Pix) (z : Fin N → Fin Z → ℚ) (s : AGState N Pix) :
    (Fin N → Pix → ℚ) × AGState N Pix :=
  (fun n => dec.f (z n),
   { s with decRunning := bnUpdate s.decRunning (batchMean z),
            decCalls := s.decCalls + 1 })

/-- Gradient seed `one_code` of `find_jacobian`: zeros except for ones in
latent column `d` (`one_code[:, d] = 1` for every sample row). -/
def oneCode {N Z : ℕ} (d : Fin Z) : Fin N → Fin Z → ℚ :=
  fun _ j => if j = d then 1 else 0

/-- Autograd backward pass `z.backward(seed, retain_graph=True)` for
`z = encoder(x)` with `x` a leaf that requires grad: the vector-Jacobian
product of the seed with the encoder's Jacobian is accumulated into the
`.grad` buffer of `x`.  Nodes built forward of `z` (such as the in-loop
decode) are not on the path from `z` back to `x` and contribute nothing. -/
def backwardFromZ {N Z : ℕ} {Pix : Type} [Fintype Pix]
    (enc : DiffFn Pix (Fin Z)) (s : AGState N Pix) (seed : Fin N → Fin Z → ℚ) :
    AGState N Pix :=
  { s with xGrad :=
      if s.xRequiresGrad = true then
        fun n p => s.xGrad n p + ∑ j, seed n j * enc.jac (s.xData n) j p
      else s.xGrad }

/-- Body of the per-dimension loop of `find_jacobian` (lines 101–107 of
`test_CAE.py`): decode the latent batch (`x_hat = decoder(z)`, result
unused), build the one-hot seed, run the backward pass from `z`, store
`x.grad` as column `d` of the Jacobian tensor, then zero the grad buffer
(`x.grad.data.zero_()`). -/
def jacStep {N Z : ℕ} {Pix : Type} [Fintype Pix]
    (enc : DiffFn Pix (Fin Z)) (dec : DiffFn (Fin Z) Pix) (z : Fin N → Fin Z → ℚ)
    (acc : (Fin N → Pix → Fin Z → ℚ) × AGState N Pix) (d : Fin Z) :
    (Fin N → Pix → Fin Z → ℚ) × AGState N Pix :=
  (fun n p d' =>
     if d' = d then
       (backwardFromZ enc (decoderForward dec z acc.2).2 (oneCode d)).xGrad n p
     else acc.1 n p d',
   { backwardFromZ enc (decoderForward dec z acc.2).2 (oneCode d) with
       xGrad := fun _ _ => 0 })

/-- Embedding of `find_jacobian` (`test_CAE.py` lines 94–108): mark the input
as requiring gradient (`x.requires_grad_(True); x.retain_grad()`), encode the
batch once, then run the loop body for every latent dimension `d`, returning
the Jacobian tensor of shape (N, C, H, W, Z) together with the final mutable
state. -/
def find_jacobian {N Z : ℕ} {Pix : Type} [Fintype Pix]
    (enc : DiffFn Pix (Fin Z)) (dec : DiffFn (Fin Z) Pix) (s0 : AGState N Pix) :
    (Fin N → Pix → Fin Z → ℚ) × AGState N Pix :=
  (List.finRange Z).foldl
    (jacStep enc dec (encoderForward enc { s0 with xRequiresGrad := true }).1)
    (fun _ _ _ => 0, (encoderForward enc { s0 with xRequiresGrad := true }).2)

/-- Loop body of the variant of `find_jacobian` with the in-loop
`decoder(z)` call omitted. -/
def jacStepNoDecode {N Z : ℕ} {Pix : Type} [Fintype Pix]
    (enc : DiffFn Pix (Fin Z))
    (acc : (Fin N → Pix → Fin Z → ℚ) × AGState N Pix) (d : Fin Z) :
    (Fin N → Pix → Fin Z → ℚ) × AGState N Pix :=
  (fun n p d' =>
     if d' = d then (backwardFromZ enc acc.2 (oneCode d)).xGrad n p
     else acc.1 n p d',
   { backwardFromZ enc acc.2 (oneCode d) with xGrad := fun _ _ => 0 })

/-- Variant of `find_jacobian` that omits the unused `x_hat = decoder(z)`
call inside the per-dimension loop but is otherwise identical. -/
def find_jacobian_noDecode {N Z : ℕ} {Pix : Type} [Fintype Pix]
    (enc : DiffFn Pix (Fin Z)) (s0 : AGState N Pix) :
    (Fin N → Pix → Fin Z → ℚ) × AGState N Pix :=
  (List.finRange Z).foldl
    (jacStepNoDecode enc)
    (fun _ _ _ => 0, (encoderForward enc { s0 with xRequiresGrad := true }).2)

/-- Contracting the one-hot seed for dimension `d` against a vector picks
component `d`. -/
lemma oneCode_dot {N Z : ℕ} (d : Fin Z) (n : Fin N) (g : Fin Z → ℚ) :
    (∑ j, oneCode (N := N) d n j * g j) = g d := by
  simp [oneCode]

/-- State effects of the whole loop that do not depend on the gradient
invariants: the loop never touches the input values, the requires-grad flag
or the encoder module state, and it runs one decoder forward pass per
processed dimension. -/
lemma foldl_jacStep_state {N Z : ℕ} {Pix : Type} [Fintype Pix]
    (enc : DiffFn Pix (Fin Z)) (dec : DiffFn (Fin Z) Pix) (z : Fin N → Fin Z → ℚ)
    (L : List (Fin Z)) (a : (Fin N → Pix → Fin Z → ℚ) × AGState N Pix) :
    (L.foldl (jacStep enc dec z) a).2.xData = a.2.xData ∧
    (L.foldl (jacStep enc dec z) a).2.xRequiresGrad = a.2.xRequiresGrad ∧
    (L.foldl (jacStep enc dec z) a).2.encCalls = a.2.encCalls ∧
    (L.foldl (jacStep enc dec z) a).2.encRunning = a.2.encRunning ∧
    (L.foldl (jacStep enc dec z) a).2.decCalls = a.2.decCalls + L.length ∧
    (L.foldl (jacStep enc dec z) a).2.decRunning =
      (fun r => bnUpdate r (batchMean z))^[L.length] a.2.decRunning := by
  induction L generalizing a with
  | nil => simp
  | cons hd t ih =>
    obtain ⟨h1, h2, h3, h4, h5, h6⟩ := ih (jacStep enc dec z a hd)
    refine ⟨?_, ?_, ?_, ?_, ?_, ?_⟩ <;> simp only [List.foldl_cons, List.length_cons]
    · exact h1.trans rfl
    · exact h2.trans rfl
    · exact h3.trans rfl
    · exact h4.trans rfl
    · rw [h5]; show a.2.decCalls + 1 + t.length = _; omega
    · rw [h6, Function.iterate_succ_apply]; rfl

/-- Gradient content of the loop: if the loop is entered with a zeroed grad
buffer and the input requires grad, then every processed dimension stores the
vector-Jacobian product of its own one-hot seed with the encoder's Jacobian
at the (never recomputed) input, and the grad buffer ends zeroed. -/
lemma foldl_jacStep_jac {N Z : ℕ} {Pix : Type} [Fintype Pix]
    (enc : DiffFn Pix (Fin Z)) (dec : DiffFn (Fin Z) Pix) (z : Fin N → Fin Z → ℚ)
    (L : List (Fin Z)) (a : (Fin N → Pix → Fin Z → ℚ) × AGState N Pix)
    (hg : a.2.xGrad = fun _ _ => 0) (hr : a.2.xRequiresGrad = true) :
    (∀ n p d, (L.foldl (jacStep enc dec z) a).1 n p d =
      if d ∈ L then enc.jac (a.2.xData n) d p else a.1 n p d) ∧
    (L.foldl (jacStep enc dec z) a).2.xGrad = fun _ _ => 0 := by
  induction L generalizing a with
  | nil => exact ⟨fun n p d => by simp, hg⟩
  | cons hd t ih =>
    have hbw : (backwardFromZ enc (decoderForward dec z a.2).2 (oneCode hd)).xGrad =
        fun n p => enc.jac (a.2.xData n) hd p := by
      show (if a.2.xRequiresGrad = true then _ else _) = _
      rw [if_pos hr]
      funext n p
      show a.2.xGrad n p + _ = _
      rw [hg]
      simpa using oneCode_dot (N := N) hd n (fun j => enc.jac (a.2.xData n) j p)
    have hstep : (jacStep enc dec z a hd).1 =
        fun n p d => if d = hd then enc.jac (a.2.xData n) hd p else a.1 n p d := by
      funext n p d
      show (if d = hd then _ else _) = _
      rw [hbw]
    have hg' : (jacStep enc dec z a hd).2.xGrad = fun _ _ => 0 := rfl
    have hr' : (jacStep enc dec z a hd).2.xRequiresGrad = true := hr
    obtain ⟨ih1, ih2⟩ := ih (jacStep enc dec z a hd) hg' hr'
    refine ⟨?_, by simpa using ih2⟩
    intro n p d
    rw [List.foldl_cons, ih1 n p d]
    have hx : (jacStep enc dec z a hd).2.xData = a.2.xData := rfl
    rw [hx, hstep]
    by_cases hmem : d ∈ t
    · simp [hmem, List.mem_cons]
    · by_cases hde : d = hd
      · subst hde; simp [hmem]
      · simp [hmem, hde, List.mem_cons]

/-- Characterisation of the Jacobian tensor returned by `find_jacobian`: when
the call starts from an input whose grad buffer is unset (the fresh tensors
of the script), entry `[n, p, d]` is the derivative of latent component `d`
of the encoder output with respect to input component `p`, evaluated at
sample `n` of the input batch. -/
lemma find_jacobian_jac {N Z : ℕ} {Pix : Type} [Fintype Pix]
    (enc : DiffFn Pix (Fin Z)) (dec : DiffFn (Fin Z) Pix) (s0 : AGState N Pix)
    (hg : s0.xGrad = fun _ _ => 0) :
    ∀ n p d, (find_jacobian enc dec s0).1 n p d = enc.jac (s0.xData n) d p := by
  intro n p d
  have h := (foldl_jacStep_jac enc dec
      (encoderForward enc { s0 with xRequiresGrad := true }).1 (List.finRange Z)
      (fun _ _ _ => 0, (encoderForward enc { s0 with xRequiresGrad := true }).2)
      hg rfl).1 n p d
  show (find_jacobian enc dec s0).1 n p d = _
  rw [show (find_jacobian enc dec s0).1 n p d =
      ((List.finRange Z).foldl
        (jacStep enc dec (encoderForward enc { s0 with xRequiresGrad := true }).1)
        (fun _ _ _ => 0, (encoderForward enc { s0 with xRequiresGrad := true }).2)).1 n p d
      from rfl, h]
  rw [if_pos (List.mem_finRange d)]
  rfl

/-- Final grad buffer of `find_jacobian` is zero (each loop iteration ends by
zeroing it, and the buffer started unset). -/
lemma find_jacobian_xGrad {N Z : ℕ} {Pix : Type} [Fintype Pix]
    (enc : DiffFn Pix (Fin Z)) (dec : DiffFn (Fin Z) Pix) (s0 : AGState N Pix)
    (hg : s0.xGrad = fun _ _ => 0) :
    (find_jacobian enc dec s0).2.xGrad = fun _ _ => 0 :=
  (foldl_jacStep_jac enc dec
      (encoderForward enc { s0 with xRequiresGrad := true }).1 (List.finRange Z)
      (fun _ _ _ => 0, (encoderForward enc { s0 with xRequiresGrad := true }).2)
      hg rfl).2

/-- State after `find_jacobian`: input values untouched, requires-grad flag
left set, exactly one encoder forward pass, exactly `Z` decoder forward
passes, and both modules' BatchNorm running statistics updated accordingly. -/
lemma find_jacobian_state {N Z : ℕ} {Pix : Type} [Fintype Pix]
    (enc : DiffFn Pix (Fin Z)) (dec : DiffFn (Fin Z) Pix) (s0 : AGState N Pix) :
    (find_jacobian enc dec s0).2.xData = s0.xData ∧
    (find_jacobian enc dec s0).2.xRequiresGrad = true ∧
    (find_jacobian enc dec s0).2.encCalls = s0.encCalls + 1 ∧
    (find_jacobian enc dec s0).2.encRunning = bnUpdate s0.encRunning (batchMean s0.xData) ∧
    (find_jacobian enc dec s0).2.decCalls = s0.decCalls + Z ∧
    (find_jacobian enc dec s0).2.decRunning =
      (fun r => bnUpdate r (batchMean fun n => enc.f (s0.xData n)))^[Z] s0.decRunning := by
  obtain ⟨h1, h2, h3, h4, h5, h6⟩ := foldl_jacStep_state enc dec
    (encoderForward enc { s0 with xRequiresGrad := true }).1 (List.finRange Z)
    (fun _ _ _ => 0, (encoderForward enc { s0 with xRequiresGrad := true }).2)
  refine ⟨h1.trans rfl, h2.trans rfl, h3.trans rfl, h4.trans rfl, ?_, ?_⟩
  · rw [show (find_jacobian enc dec s0).2.decCalls =
        ((List.finRange Z).foldl
          (jacStep enc dec (encoderForward enc { s0 with xRequiresGrad := true }).1)
          (fun _ _ _ => 0, (encoderForward enc { s0 with xRequiresGrad := true }).2)).2.decCalls
        from rfl, h5, List.length_finRange]
    rfl
  · rw [show (find_jacobian enc dec s0).2.decRunning =
        ((List.finRange Z).foldl
          (jacStep enc dec (encoderForward enc { s0 with xRequiresGrad := true }).1)
          (fun _ _ _ => 0, (encoderForward enc { s0 with xRequiresGrad := true }).2)).2.decRunning
        from rfl, h6, List.length_finRange]
    rfl

/-- The loop bodies with and without the in-loop decode produce the same
Jacobian accumulator and states that agree on everything the backward pass
reads (input values, grad buffer, requires-grad flag). -/
lemma foldl_jac_eq_noDecode {N Z : ℕ} {Pix : Type} [Fintype Pix]
    (enc : DiffFn Pix (Fin Z)) (dec : DiffFn (Fin Z) Pix) (z : Fin N → Fin Z → ℚ)
    (L : List (Fin Z)) (a b : (Fin N → Pix → Fin Z → ℚ) × AGState N Pix)
    (hj : a.1 = b.1) (hx : a.2.xData = b.2.xData) (hg : a.2.xGrad = b.2.xGrad)
    (hr : a.2.xRequiresGrad = b.2.xRequiresGrad) :
    (L.foldl (jacStep enc dec z) a).1 = (L.foldl (jacStepNoDecode enc) b).1 := by
  induction L generalizing a b with
  | nil => exact hj
  | cons hd t ih =>
    have hbw : (backwardFromZ enc (decoderForward dec z a.2).2 (oneCode hd)).xGrad =
        (backwardFromZ enc b.2 (oneCode hd)).xGrad := by
      show (if a.2.xRequiresGrad = true then _ else _) =
        (if b.2.xRequiresGrad = true then _ else _)
      have e1 : (decoderForward dec z a.2).2.xGrad = a.2.xGrad := rfl
      have e2 : (decoderForward dec z a.2).2.xData = a.2.xData := rfl
      rw [e1, e2, hr, hx, hg]
    rw [List.foldl_cons, List.foldl_cons]
    refine ih (jacStep enc dec z a hd) (jacStepNoDecode enc b hd) ?_ ?_ ?_ ?_
    · funext n p d'
      show (if d' = hd then _ else a.1 n p d') = (if d' = hd then _ else b.1 n p d')
      rw [hj, hbw]
    · exact hx
    · rfl
    · exact hr

/-- Composite latent direction selection of the traversal loop, translated
from `direction = v.T[:, d]` at line 119 of `test_CAE.py`: column `d` of the
transpose of the matrix `v` returned by `torch.svd` — that is, row `d` of
`v`. -/
def directionUsed {Z : ℕ} (v : Matrix (Fin Z) (Fin Z) ℚ) (d : Fin Z) : Fin Z → ℚ :=
  fun i => v.transpose i d

/-- Evenly spaced values of `torch.linspace(a, b, n)`:
`a + k * (b - a) / (n - 1)` for `k = 0, …, n-1` (both endpoints included). -/
def linspace (a b : ℚ) (n : ℕ) (k : Fin n) : ℚ :=
  a + (b - a) / ((n - 1 : ℕ) : ℚ) * (k.val : ℚ)

/-- Decode the latent point displaced along a direction by a coefficient:
one image of `decoder(z[None, :] + coeff[:, None] * direction)`. -/
def decodeAt {Z : ℕ} {Pix : Type} (dec : DiffFn (Fin Z) Pix)
    (z dir : Fin Z → ℚ) (c : ℚ) : Pix → ℚ :=
  dec.f (fun i => z i + c * dir i)

/-- Write one image into one cell of a row of axes (`ax[d, j].imshow(im)`). -/
def setCell {Pix : Type} (g : Fin 11 → Pix → ℚ) (j : Fin 11) (im : Pix → ℚ) :
    Fin 11 → Pix → ℚ :=
  fun j' => if j' = j then im else g j'

/-- Column index filled by the negative-coefficient loop (`ax[d, k]`). -/
def colNeg (k : Fin 5) : Fin 11 := ⟨k.val, by have := k.isLt; omega⟩

/-- Column index filled by the positive-coefficient loop (`ax[d, 6+k]`). -/
def colPos (k : Fin 5) : Fin 11 := ⟨6 + k.val, by have := k.isLt; omega⟩

/-- One rendered traversal row of `test_CAE.py` (lines 118–129), in the fill
order of the code: the raw input image into centre column 5, then the five
decodes at coefficients `linspace(0, coeff_range, 5)` into columns 6–10, then
the five decodes at coefficients `linspace(-coeff_range, 0, 5)` into columns
0–4, with the script's constant `coeff_range = 10`. -/
def renderRow {Z : ℕ} {Pix : Type} (dec : DiffFn (Fin Z) Pix)
    (z dir : Fin Z → ℚ) (orig : Pix → ℚ) : Fin 11 → Pix → ℚ :=
  (List.finRange 5).foldl
    (fun g k => setCell g (colNeg k) (decodeAt dec z dir (linspace (-10) 0 5 k)))
    ((List.finRange 5).foldl
      (fun g k => setCell g (colPos k) (decodeAt dec z dir (linspace 0 10 5 k)))
      (setCell (fun _ _ => 0) 5 orig))

/-- Full traversal grid for one sample: one row per direction index
`d < num_directions = 5`, each of the 11 columns holding one image. -/
def renderGrid {Z : ℕ} {Pix : Type} (dec : DiffFn (Fin Z) Pix)
    (z : Fin Z → ℚ) (dirs : Fin 5 → Fin Z → ℚ) (orig : Pix → ℚ) :
    Fin 5 → Fin 11 → Pix → ℚ :=
  fun d => renderRow dec z (dirs d) orig

/-- Centre column of a rendered row holds the raw input image. -/
lemma renderRow_center {Z : ℕ} {Pix : Type} (dec : DiffFn (Fin Z) Pix)
    (z dir : Fin Z → ℚ) (orig : Pix → ℚ) :
    renderRow dec z dir orig 5 = orig := rfl

/-- Column `k < 5` of a rendered row holds the decode at the `k`-th
negative-range coefficient. -/
lemma renderRow_colNeg {Z : ℕ} {Pix : Type} (dec : DiffFn (Fin Z) Pix)
    (z dir : Fin Z → ℚ) (orig : Pix → ℚ) (k : Fin 5) :
    renderRow dec z dir orig (colNeg k) =
      decodeAt dec z dir (linspace (-10) 0 5 k) := by
  fin_cases k <;> rfl

/-- Column `6 + k` of a rendered row holds the decode at the `k`-th
positive-range coefficient. -/
lemma renderRow_colPos {Z : ℕ} {Pix : Type} (dec : DiffFn (Fin Z) Pix)
    (z dir : Fin Z → ℚ) (orig : Pix → ℚ) (k : Fin 5) :
    renderRow dec z dir orig (colPos k) =
      decodeAt dec z dir (linspace 0 10 5 k) := by
  fin_cases k <;> rfl

/-- Zero displacement decodes the unmodified latent code. -/
lemma decodeAt_zero {Z : ℕ} {Pix : Type} (dec : DiffFn (Fin Z) Pix)
    (z dir : Fin Z → ℚ) : decodeAt dec z dir 0 = dec.f z := by
  unfold decodeAt
  have h : (fun i => z i + (0 : ℚ) * dir i) = z := by
    funext i
    ring
  rw [h]

/-- Concrete one-pixel image index used by the concrete evaluations. -/
def p0 : Pixel 1 1 1 := (0, 0, 0)

/-- Concrete linear encoder on one-pixel images with one latent dimension:
`z = 2·x`, with Jacobian constantly 2. -/
def enc2 : DiffFn (Pixel 1 1 1) (Fin 1) :=
  ⟨fun x _ => 2 * x p0, fun _ _ _ => 2⟩

/-- Concrete linear decoder on one latent dimension: `x̂ = 3·z`, with
Jacobian constantly 3 (distinct from the encoder's). -/
def dec3 : DiffFn (Fin 1) (Pixel 1 1 1) :=
  ⟨fun z _ => 3 * z 0, fun _ _ _ => 3⟩

/-- Concrete pre-call state: a fresh batch of one all-ones sample, grad
unset, `requires_grad` off, zeroed running statistics and counters. -/
def s0c : AGState 1 (Pixel 1 1 1) :=
  ⟨fun _ _ => 1, false, fun _ _ => 0, 0, 0, 0, 0⟩

/-- Concrete latent point for renderer evaluations. -/
def zC : Fin 1 → ℚ := fun _ => 4

/-- Concrete direction set for renderer evaluations. -/
def dirsC : Fin 5 → Fin 1 → ℚ := fun _ _ => 1

/-- Concrete original image for renderer evaluations. -/
def origC : Pixel 1 1 1 → ℚ := fun _ => 7

/-- Concrete flattened 2×2 Jacobian matrix (two pixels, two latent
dimensions) whose singular value decomposition is
`M0 = U0 ⬝ diagonal sv0 ⬝ V0.transpose` with distinct singular values 2 > 1. -/
def M0 : Matrix (Fin 2) (Fin 2) ℚ := !![6/5, 8/5; -4/5, 3/5]

/-- Left factor of the decomposition of `M0` (orthogonal). -/
def U0 : Matrix (Fin 2) (Fin 2) ℚ := 1

/-- Singular values of `M0`, in descending order. -/
def sv0 : Fin 2 → ℚ := ![2, 1]

/-- Right-singular-vector factor of the decomposition of `M0`: columns are
the right-singular vectors; note the matrix is not symmetric, so its rows
differ from its columns. -/
def V0 : Matrix (Fin 2) (Fin 2) ℚ := !![3/5, -4/5; 4/5, 3/5]


/-- Explicit form of the transpose of `V0`. -/
lemma V0_transpose : V0.transpose = !![3/5, 4/5; -4/5, 3/5] := by
  ext i j
  fin_cases i <;> fin_cases j <;> simp [V0, Matrix.transpose_apply]

/-- Validity of the decomposition: `M0 = U0 ⬝ diagonal sv0 ⬝ V0.transpose`. -/
lemma M0_svd : M0 = U0 * Matrix.diagonal sv0 * V0.transpose := by
  rw [V0_transpose]
  ext i j
  fin_cases i <;> fin_cases j <;>
    simp [M0, U0, sv0, Matrix.mul_apply, Fin.sum_univ_two, Matrix.diagonal] <;>
    norm_num

/-- The columns of `V0` are orthonormal. -/
lemma V0_orth : V0.transpose * V0 = 1 := by
  rw [V0_transpose]
  ext i j
  fin_cases i <;> fin_cases j <;>
    simp [V0, Matrix.mul_apply, Fin.sum_univ_two, Matrix.one_apply] <;> norm_num

/-- Gradient that a single backward pass with the one-hot seed for dimension
`d` would produce on a freshly zeroed grad buffer, right after the one
encoder forward pass of `find_jacobian`. -/
def singleSeedGrad {N Z : ℕ} {Pix : Type} [Fintype Pix]
    (enc : DiffFn Pix (Fin Z)) (s0 : AGState N Pix) (d : Fin Z) :
    Fin N → Pix → ℚ :=
  (backwardFromZ enc
    { (encoderForward enc { s0 with xRequiresGrad := true }).2 with
        xGrad := fun _ _ => 0 }
    (oneCode d)).xGrad

/-- The single-seed gradient for dimension `d` is exactly row `d` of the
encoder's Jacobian at each sample. -/
lemma singleSeedGrad_eq {N Z : ℕ} {Pix : Type} [Fintype Pix]
    (enc : DiffFn Pix (Fin Z)) (s0 : AGState N Pix) (d : Fin Z) :
    singleSeedGrad enc s0 d = fun n p => enc.jac (s0.xData n) d p := by
  funext n p
  have step : singleSeedGrad enc s0 d n p =
      0 + ∑ j, oneCode (N := N) d n j * enc.jac (s0.xData n) j p := rfl
  rw [step, zero_add, oneCode_dot]

/-- Closed form of the negative-range coefficients. -/
lemma linspace_neg_val (k : Fin 5) :
    linspace (-10) 0 5 k = -10 + 5/2 * (k.val : ℚ) := by
  unfold linspace
  norm_num

/-- Closed form of the positive-range coefficients. -/
lemma linspace_pos_val (k : Fin 5) :
    linspace 0 10 5 k = 5/2 * (k.val : ℚ) := by
  unfold linspace
  norm_num

/-- C1 (counterexample to the claim as stated): for the concrete linear
encoder `enc2` (slope 2) and decoder `dec3` (slope 3) on a one-pixel image
with one latent dimension, entry [0,0,0,0] of the Jacobian tensor returned
by `find_jacobian` is 2 and differs from 3, which is the derivative of the
decoded pixel with respect to the latent dimension at the sample's encoded
latent code. -/
theorem jacobian_entry_not_decoder_derivative :
    (find_jacobian enc2 dec3 s0c).1 0 p0 0 ≠
      dec3.jac (enc2.f (s0c.xData 0)) p0 0 := by
  rw [find_jacobian_jac enc2 dec3 s0c rfl 0 p0 0]
  norm_num [enc2, dec3]

/-- C1 (amended): for every sample in the input batch, entry [c,h,w,d] of
the per-sample Jacobian tensor returned by `find_jacobian` equals the
derivative of latent dimension `d` of the *encoder's* output with respect to
input pixel (c,h,w), evaluated at that sample's input (the base point whose
encoding is the fixed latent code). -/
theorem jacobian_entry_eq_encoder_derivative {N Z C H W : ℕ}
    (enc : DiffFn (Pixel C H W) (Fin Z)) (dec : DiffFn (Fin Z) (Pixel C H W))
    (s0 : AGState N (Pixel C H W)) (hg : s0.xGrad = fun _ _ => 0)
    (n : Fin N) (p : Pixel C H W) (d : Fin Z) :
    (find_jacobian enc dec s0).1 n p d = enc.jac (s0.xData n) d p :=
  find_jacobian_jac enc dec s0 hg n p d

/-- Witness for the amended C1 at the concrete instance. -/
theorem jacobian_entry_eq_encoder_derivative_witness :
    (s0c.xGrad = fun _ _ => 0) ∧
    (find_jacobian enc2 dec3 s0c).1 0 p0 0 = enc2.jac (s0c.xData 0) 0 p0 :=
  ⟨rfl, jacobian_entry_eq_encoder_derivative enc2 dec3 s0c rfl 0 p0 0⟩

/-- C2: at the concrete flattened Jacobian `M0`, whose singular value
decomposition `M0 = U0 ⬝ diagonal sv0 ⬝ V0.transpose` has orthogonal factors
and descending singular values 2 > 1, the latent direction the code uses for
traversal row 0 (`direction = v.T[:, 0]`, i.e. `directionUsed V0 0`) is not
the 0-th right-singular vector (column 0 of `V0`): the code selects row 0 of
`V0` instead. -/
theorem direction_used_is_row_not_column :
    M0 = U0 * Matrix.diagonal sv0 * V0.transpose ∧
    U0.transpose * U0 = 1 ∧
    V0.transpose * V0 = 1 ∧
    sv0 1 ≤ sv0 0 ∧ 0 ≤ sv0 1 ∧
    directionUsed V0 0 ≠ (fun i => V0 i 0) := by
  refine ⟨M0_svd, ?_, V0_orth, ?_, ?_, ?_⟩
  · simp [U0, Matrix.transpose_one]
  · show (1 : ℚ) ≤ 2
    norm_num
  · show (0 : ℚ) ≤ 1
    norm_num
  · intro h
    have h1 := congrFun h 1
    simp [directionUsed, V0, Matrix.transpose_apply] at h1
    norm_num at h1

/-- C3: during one call of `find_jacobian` the encoder runs exactly once
(the encoder-forward counter increases by exactly 1), and every stored
Jacobian column `d` is the backward contraction of the one-hot seed for `d`
with the encoder's Jacobian at the one fixed input batch, i.e. all `Z`
columns are derivatives taken at the same base point, whose encoding is the
single latent batch computed before the loop. -/
theorem encoder_called_once_fixed_base {N Z : ℕ} {Pix : Type} [Fintype Pix]
    (enc : DiffFn Pix (Fin Z)) (dec : DiffFn (Fin Z) Pix) (s0 : AGState N Pix)
    (hg : s0.xGrad = fun _ _ => 0) :
    (find_jacobian enc dec s0).2.encCalls = s0.encCalls + 1 ∧
    ∀ (n : Fin N) (p : Pix) (d : Fin Z),
      (find_jacobian enc dec s0).1 n p d =
        ∑ j, oneCode (N := N) d n j * enc.jac (s0.xData n) j p := by
  refine ⟨(find_jacobian_state enc dec s0).2.2.1, ?_⟩
  intro n p d
  rw [find_jacobian_jac enc dec s0 hg n p d, oneCode_dot]

/-- Witness for C3 at the concrete instance. -/
theorem encoder_called_once_fixed_base_witness :
    (s0c.xGrad = fun _ _ => 0) ∧
    (find_jacobian enc2 dec3 s0c).2.encCalls = s0c.encCalls + 1 :=
  ⟨rfl, (encoder_called_once_fixed_base enc2 dec3 s0c rfl).1⟩

/-- C4: the grad buffer is reset to zero after each dimension's backward
pass (in particular it is zero when `find_jacobian` returns), and therefore
every stored column `d` equals the gradient that the one-hot seed for
dimension `d` alone produces on a clean buffer, with no accumulation from
previously processed dimensions. -/
theorem grad_buffer_reset_columns_independent {N Z : ℕ} {Pix : Type} [Fintype Pix]
    (enc : DiffFn Pix (Fin Z)) (dec : DiffFn (Fin Z) Pix) (s0 : AGState N Pix)
    (hg : s0.xGrad = fun _ _ => 0) :
    ((find_jacobian enc dec s0).2.xGrad = fun _ _ => 0) ∧
    ∀ (n : Fin N) (p : Pix) (d : Fin Z),
      (find_jacobian enc dec s0).1 n p d = singleSeedGrad enc s0 d n p := by
  refine ⟨find_jacobian_xGrad enc dec s0 hg, ?_⟩
  intro n p d
  rw [find_jacobian_jac enc dec s0 hg n p d, singleSeedGrad_eq]

/-- Witness for C4 at the concrete instance. -/
theorem grad_buffer_reset_columns_independent_witness :
    (s0c.xGrad = fun _ _ => 0) ∧
    (find_jacobian enc2 dec3 s0c).1 0 p0 0 = singleSeedGrad enc2 s0c 0 0 p0 :=
  ⟨rfl, (grad_buffer_reset_columns_independent enc2 dec3 s0c rfl).2 0 p0 0⟩

/-- C5: for any matrix `v` returned by the decomposition (modelled by its
guarantee `v.transpose * v = 1`, which `torch.svd` provides whenever the
flattened Jacobian has at least as many rows as columns, as in the script
where a sample has C·H·W ≥ Z pixels), the direction vectors the traversal
loop uses are mutually orthonormal: any two of them for distinct row indices
have inner product 0 and each has inner product 1 with itself. -/
theorem directions_orthonormal {Z : ℕ} (v : Matrix (Fin Z) (Fin Z) ℚ)
    (hv : v.transpose * v = 1) (d e : Fin Z) :
    (∑ i, directionUsed v d i * directionUsed v e i) = if d = e then 1 else 0 := by
  have hvv : v * v.transpose = 1 := Matrix.mul_eq_one_comm.mp hv
  have happ : (v * v.transpose) d e = (1 : Matrix (Fin Z) (Fin Z) ℚ) d e := by
    rw [hvv]
  rw [Matrix.mul_apply, Matrix.one_apply] at happ
  simpa [directionUsed, Matrix.transpose_apply] using happ

/-- Witness for C5 at the concrete orthogonal factor `V0`. -/
theorem directions_orthonormal_witness :
    (V0.transpose * V0 = 1) ∧
    (∑ i, directionUsed V0 0 i * directionUsed V0 1 i) =
      if (0 : Fin 2) = 1 then 1 else 0 :=
  ⟨V0_orth, directions_orthonormal V0 V0_orth 0 1⟩

/-- C7: the Jacobian tensor returned by `find_jacobian` is unchanged if the
`decoder(z)` call inside the per-dimension loop is omitted, for every input
batch, every starting state and every encoder/decoder pair. -/
theorem jacobian_unchanged_without_decode {N Z : ℕ} {Pix : Type} [Fintype Pix]
    (enc : DiffFn Pix (Fin Z)) (dec : DiffFn (Fin Z) Pix) (s0 : AGState N Pix) :
    (find_jacobian enc dec s0).1 = (find_jacobian_noDecode enc s0).1 :=
  foldl_jac_eq_noDecode enc dec
    (encoderForward enc { s0 with xRequiresGrad := true }).1 (List.finRange Z)
    (fun _ _ _ => 0, (encoderForward enc { s0 with xRequiresGrad := true }).2)
    (fun _ _ _ => 0, (encoderForward enc { s0 with xRequiresGrad := true }).2)
    rfl rfl rfl rfl

/-- C8 (counterexample to the claim as stated): at the concrete instance,
after `find_jacobian` returns, the decoder's and encoder's BatchNorm running
statistics differ from their values before the call (the forward passes ran
with the modules left in training mode), and the input tensor's
`requires_grad` flag has been switched on; so encoder state, decoder state
and the caller's input tensor are not all unchanged. -/
theorem find_jacobian_mutates_module_state :
    (find_jacobian enc2 dec3 s0c).2.decRunning ≠ s0c.decRunning ∧
    (find_jacobian enc2 dec3 s0c).2.encRunning ≠ s0c.encRunning ∧
    (find_jacobian enc2 dec3 s0c).2.xRequiresGrad ≠ s0c.xRequiresGrad := by
  refine ⟨?_, ?_, ?_⟩
  · have h := (find_jacobian_state enc2 dec3 s0c).2.2.2.2.2
    rw [h]
    show (fun r => bnUpdate r _)^[1] s0c.decRunning ≠ s0c.decRunning
    rw [Function.iterate_one]
    simp [batchMean, bnUpdate, bnMomentum, enc2, s0c]
  · have h := (find_jacobian_state enc2 dec3 s0c).2.2.2.1
    rw [h]
    simp [batchMean, bnUpdate, bnMomentum, s0c]
  · have h := (find_jacobian_state enc2 dec3 s0c).2.1
    rw [h]
    simp [s0c]

/-- C8 (amended): `find_jacobian` leaves the input tensor's values unchanged
and returns with the grad buffer fully reset to zero, but it does have
observable side effects beyond that: the input's `requires_grad` flag is
left set, the encoder has run one training-mode forward pass and the decoder
`Z` of them, updating their call counts and BatchNorm running statistics
accordingly (the script never switches the modules to eval mode).  The
encoder and decoder parameters (weights) are untouched: the returned state
contains the same `enc`/`dec` functions, which are never written. -/
theorem find_jacobian_frame_conditions {N Z : ℕ} {Pix : Type} [Fintype Pix]
    (enc : DiffFn Pix (Fin Z)) (dec : DiffFn (Fin Z) Pix) (s0 : AGState N Pix)
    (hg : s0.xGrad = fun _ _ => 0) :
    (find_jacobian enc dec s0).2.xData = s0.xData ∧
    ((find_jacobian enc dec s0).2.xGrad = fun _ _ => 0) ∧
    (find_jacobian enc dec s0).2.xRequiresGrad = true ∧
    (find_jacobian enc dec s0).2.encCalls = s0.encCalls + 1 ∧
    (find_jacobian enc dec s0).2.decCalls = s0.decCalls + Z ∧
    (find_jacobian enc dec s0).2.encRunning =
      bnUpdate s0.encRunning (batchMean s0.xData) ∧
    (find_jacobian enc dec s0).2.decRunning =
      (fun r => bnUpdate r (batchMean fun n => enc.f (s0.xData n)))^[Z]
        s0.decRunning := by
  obtain ⟨h1, h2, h3, h4, h5, h6⟩ := find_jacobian_state enc dec s0
  exact ⟨h1, find_jacobian_xGrad enc dec s0 hg, h2, h3, h5, h4, h6⟩

/-- Witness for the amended C8 at the concrete instance. -/
theorem find_jacobian_frame_conditions_witness :
    (s0c.xGrad = fun _ _ => 0) ∧
    (find_jacobian enc2 dec3 s0c).2.xData = s0c.xData :=
  ⟨rfl, (find_jacobian_frame_conditions enc2 dec3 s0c rfl).1⟩

/-- C6: with the script's constants `num_directions = 5`, `coeff_range = 10`
and `num_steps = 5`, each sample's traversal grid has 5 rows and 11 columns
(the type of `renderGrid`); in every row, column `k` for `k = 0, …, 4` holds
the decode at the `k`-th of the 5 coefficients linearly spaced over
[-10, 0] (strictly increasing in `k`, so the most negative is leftmost, at
coefficient -10), the raw input sample sits in centre column 5, and column
`6 + k` holds the decode at the `k`-th of the 5 coefficients linearly spaced
over [0, 10] (strictly increasing, so the most positive is rightmost, at
coefficient 10). -/
theorem traversal_grid_layout {Z : ℕ} {Pix : Type} (dec : DiffFn (Fin Z) Pix)
    (z : Fin Z → ℚ) (dirs : Fin 5 → Fin Z → ℚ) (orig : Pix → ℚ) :
    (∀ d : Fin 5, renderGrid dec z dirs orig d 5 = orig) ∧
    (∀ d k : Fin 5, renderGrid dec z dirs orig d (colNeg k) =
        decodeAt dec z (dirs d) (linspace (-10) 0 5 k)) ∧
    (∀ d k : Fin 5, renderGrid dec z dirs orig d (colPos k) =
        decodeAt dec z (dirs d) (linspace 0 10 5 k)) ∧
    (∀ k l : Fin 5, k < l →
        linspace (-10) 0 5 k < linspace (-10) 0 5 l ∧
        linspace 0 10 5 k < linspace 0 10 5 l) ∧
    linspace (-10) 0 5 0 = -10 ∧ linspace (-10) 0 5 4 = 0 ∧
    linspace 0 10 5 0 = 0 ∧ linspace 0 10 5 4 = 10 := by
  refine ⟨fun d => renderRow_center dec z (dirs d) orig,
    fun d k => renderRow_colNeg dec z (dirs d) orig k,
    fun d k => renderRow_colPos dec z (dirs d) orig k, ?_, ?_, ?_, ?_, ?_⟩
  · intro k l hkl
    have hc : (k.val : ℚ) < (l.val : ℚ) := by exact_mod_cast hkl
    rw [linspace_neg_val, linspace_neg_val, linspace_pos_val, linspace_pos_val]
    constructor <;> linarith
  · rw [linspace_neg_val]
    norm_num
  · rw [linspace_neg_val]
    norm_num [show ((4 : Fin 5) : ℕ) = 4 from rfl]
  · rw [linspace_pos_val]
    norm_num
  · rw [linspace_pos_val]
    norm_num [show ((4 : Fin 5) : ℕ) = 4 from rfl]

/-- Witness for C6 at the concrete instance. -/
theorem traversal_grid_layout_witness :
    renderGrid dec3 zC dirsC origC 0 5 = origC ∧
    linspace (-10) 0 5 0 < linspace (-10) 0 5 1 :=
  ⟨(traversal_grid_layout dec3 zC dirsC origC).1 0,
   ((traversal_grid_layout dec3 zC dirsC origC).2.2.2.1 0 1 (by decide)).1⟩

/-- C9: in every rendered row, the image decoded at coefficient 0 — the
shared endpoint of the negative range (its last column, 4) and of the
positive range (its first column, 6) — equals the decoder's output on the
unmodified latent code, since zero displacement leaves the latent code
unchanged. -/
theorem zero_coefficient_decodes_base_latent {Z : ℕ} {Pix : Type}
    (dec : DiffFn (Fin Z) Pix) (z : Fin Z → ℚ) (dirs : Fin 5 → Fin Z → ℚ)
    (orig : Pix → ℚ) (d : Fin 5) :
    renderGrid dec z dirs orig d (colNeg 4) = dec.f z ∧
    renderGrid dec z dirs orig d (colPos 0) = dec.f z := by
  have h4 : linspace (-10) 0 5 4 = 0 := by
    rw [linspace_neg_val]
    norm_num [show ((4 : Fin 5) : ℕ) = 4 from rfl]
  have h0 : linspace 0 10 5 0 = 0 := by
    rw [linspace_pos_val]
    norm_num
  constructor
  · show renderRow dec z (dirs d) orig (colNeg 4) = dec.f z
    rw [renderRow_colNeg, h4, decodeAt_zero]
  · show renderRow dec z (dirs d) orig (colPos 0) = dec.f z
    rw [renderRow_colPos, h0, decodeAt_zero]

/-- C10: in every rendered row the last negative-range column (4) and the
first positive-range column (6) hold the identical image, both decoding the
unmodified latent code, because coefficient 0 belongs to both linspace
ranges; the raw input sits between them in column 5, and only the 4 columns
0–3 carry strictly negative coefficients and only the 4 columns 7–10 carry
strictly positive ones. -/
theorem center_adjacent_columns_duplicate {Z : ℕ} {Pix : Type}
    (dec : DiffFn (Fin Z) Pix) (z : Fin Z → ℚ) (dirs : Fin 5 → Fin Z → ℚ)
    (orig : Pix → ℚ) (d : Fin 5) :
    renderGrid dec z dirs orig d (colNeg 4) =
      renderGrid dec z dirs orig d (colPos 0) ∧
    renderGrid dec z dirs orig d (colNeg 4) = dec.f z ∧
    renderGrid dec z dirs orig d 5 = orig ∧
    (∀ k : Fin 5, k.val < 4 → linspace (-10) 0 5 k < 0) ∧
    (∀ k : Fin 5, 0 < k.val → 0 < linspace 0 10 5 k) := by
  have h4 : linspace (-10) 0 5 4 = 0 := by
    rw [linspace_neg_val]
    norm_num [show ((4 : Fin 5) : ℕ) = 4 from rfl]
  have h0 : linspace 0 10 5 0 = 0 := by
    rw [linspace_pos_val]
    norm_num
  have hneg : renderGrid dec z dirs orig d (colNeg 4) = dec.f z := by
    show renderRow dec z (dirs d) orig (colNeg 4) = dec.f z
    rw [renderRow_colNeg, h4, decodeAt_zero]
  have hpos : renderGrid dec z dirs orig d (colPos 0) = dec.f z := by
    show renderRow dec z (dirs d) orig (colPos 0) = dec.f z
    rw [renderRow_colPos, h0, decodeAt_zero]
  refine ⟨hneg.trans hpos.symm, hneg, renderRow_center dec z (dirs d) orig, ?_, ?_⟩
  · intro k hk
    have hc : (k.val : ℚ) ≤ 3 := by
      exact_mod_cast Nat.lt_succ_iff.mp hk
    rw [linspace_neg_val]
    linarith
  · intro k hk
    have hc : (1 : ℚ) ≤ (k.val : ℚ) := by exact_mod_cast hk
    rw [linspace_pos_val]
    linarith

/-- Witness for C10 at the concrete instance. -/
theorem center_adjacent_columns_duplicate_witness :
    renderGrid dec3 zC dirsC origC 0 (colNeg 4) =
      renderGrid dec3 zC dirsC origC 0 (colPos 0) ∧
    linspace (-10) 0 5 0 < 0 :=
  ⟨(center_adjacent_columns_duplicate dec3 zC dirsC origC 0).1,
   (center_adjacent_columns_duplicate dec3 zC dirsC origC 0).2.2.2.1 0 (by decide)⟩
